import Mathlib

/-!
Verification development for the `lsvd-rbd` storage engine
(`src/write_cache.cc`, `src/lsvd_rbd.cc`).

The definitions below are shallow embeddings of the C++ source.  Machine
integers are modelled as `Nat`; where 32-bit wraparound matters the source
arithmetic is written with an explicit `% 2^32`.  The generic extent map
(`extent.cc`) is included by `lsvd_rbd.cc` but its implementation file is
not part of the source tree; it is modelled from the specification's
"Extent map" section (update / lookup / trim / clipped iterator values).
-/

/-- `div_round_up(n, m)` from the source: `(n + m - 1) / m`. -/
def divRoundUp (n m : Nat) : Nat := (n + m - 1) / m

/-- `round_up(n, m)` from the source: `m * div_round_up(n, m)`. -/
def roundUp (n m : Nat) : Nat := m * divRoundUp n m

/-- An extent in an extent map: the half-open interval `[base, limit)`
mapped to a value `val` (the value of the first covered unit). -/
structure Extent (V : Type) where
  base : Nat
  limit : Nat
  val : V
deriving DecidableEq, Repr

/-- `(obj, offset)` pair, the value type of the object map
(`extmap::obj_offset`). -/
structure ObjOff where
  obj : Nat
  offset : Nat
deriving DecidableEq, Repr

/-- Value shift for sector-valued maps (write-cache forward/reverse maps):
clipping an extent's front advances its sector value. -/
def extShiftNat : Nat → Nat → Nat := fun v d => v + d

/-- Value shift for the object map: clipping advances the object offset. -/
def extShiftOO : ObjOff → Nat → ObjOff := fun v d => ⟨v.obj, v.offset + d⟩

namespace Extmap

variable {V : Type}

/-- Modelled from the spec: `extent.cc` is not under `src/`; the spec says
the iterator yields `(base, limit, value)` clipped to a caller-provided
window via `vals(lo, hi)`.  Clipping the front shifts the value by the
number of units cut off. -/
def clipExt (sh : V → Nat → V) (e : Extent V) (lo hi : Nat) : Extent V :=
  ⟨max e.base lo, min e.limit hi, sh e.val (max e.base lo - e.base)⟩

/-- Whether an extent overlaps the window `[lo, hi)`. -/
def overlapsB (e : Extent V) (lo hi : Nat) : Bool :=
  decide (e.base < hi) && decide (lo < e.limit)

/-- Modelled from the spec: the pieces of `e` that survive removing
`[lo, hi)` (updates "may split or trim neighbors"). -/
def residue (sh : V → Nat → V) (e : Extent V) (lo hi : Nat) : List (Extent V) :=
  if e.limit ≤ lo ∨ hi ≤ e.base then [e]
  else
    (if e.base < lo then [⟨e.base, lo, e.val⟩] else []) ++
    (if hi < e.limit then [⟨hi, e.limit, sh e.val (hi - e.base)⟩] else [])

/-- Modelled from the spec: `trim(base, limit)` removes the covered
range, splitting partially covered extents. -/
def trim (sh : V → Nat → V) (m : List (Extent V)) (lo hi : Nat) : List (Extent V) :=
  m.flatMap (fun e => residue sh e lo hi)

/-- Insert an extent into a base-sorted list, keeping the order. -/
def insertExt (e : Extent V) : List (Extent V) → List (Extent V)
  | [] => [e]
  | f :: rest => if e.base ≤ f.base then e :: f :: rest else f :: insertExt e rest

/-- Modelled from the spec: `update(base, limit, value, &out_displaced)`
sets `[base, limit) → value` and returns the displaced non-overlapping
intervals with their prior values (clipped to the updated window). -/
def update (sh : V → Nat → V) (m : List (Extent V)) (lo hi : Nat) (v : V) :
    List (Extent V) × List (Extent V) :=
  (insertExt ⟨lo, hi, v⟩ (trim sh m lo hi),
   (m.filter (fun e => overlapsB e lo hi)).map (fun e => clipExt sh e lo hi))

/-- Modelled from the spec: `lookup(base)` returns the first interval
whose `limit > base`. -/
def lookup (m : List (Extent V)) (b : Nat) : Option (Extent V) :=
  m.find? (fun e => decide (b < e.limit))

/-- The value the map assigns to the single unit `x`, if any. -/
def valAt (sh : V → Nat → V) (m : List (Extent V)) (x : Nat) : Option V :=
  (m.find? (fun e => decide (e.base ≤ x) && decide (x < e.limit))).map
    (fun e => sh e.val (x - e.base))

/-- Well-formedness of an extent map: extents are base-sorted, pairwise
disjoint and non-empty. -/
def WF (m : List (Extent V)) : Prop :=
  m.Pairwise (fun a b => a.limit ≤ b.base) ∧ ∀ e ∈ m, e.base < e.limit

instance (m : List (Extent V)) : Decidable (WF m) := by
  unfold WF; infer_instance

end Extmap

/-! ## Write cache (`src/write_cache.cc`) -/

/-- Result of `write_cache_impl::allocate` (src/write_cache.cc:382-399):
the returned header page, the PAD page and length (0 if none), and the
new `super->next`. -/
structure AllocResult where
  val : Nat
  pad : Nat
  n_pad : Nat
  next : Nat
deriving DecidableEq, Repr

/-- `write_cache_impl::allocate(n, pad, n_pad)`.  The two `evict` calls in
the source mutate only `cache_blocks` and the forward/reverse maps; they do
not affect `super->next`, the returned page or the pad outputs, so they are
not part of this allocation-arithmetic embedding.  `page_t` values fit well
within `uint32`, so `Nat` models the source arithmetic exactly under
`next ≤ limit`. -/
def wcAllocate (base limit next n : Nat) : AllocResult :=
  let (pad, n_pad, next1) :=
    if limit - next < n then (next, limit - next, base) else (0, 0, next)
  let val := next1
  let next2 := next1 + n
  ⟨val, pad, n_pad, if next2 = limit then base else next2⟩

/-- `write_cache_impl::notify_complete(start, len)`
(src/write_cache.cc:401-408): erase the first occurrence of `(start, len)`
from `outstanding`, then read `outstanding.front()`.  `front()` on an empty
vector is undefined behaviour, embedded as `none`; on success the result is
the remaining list and the new `next_acked_page`. -/
def notifyComplete (outstanding : List (Nat × Nat)) (start len : Nat) :
    Option (List (Nat × Nat) × Nat) :=
  match outstanding.erase (start, len) with
  | [] => none
  | x :: rest => some (x :: rest, x.1)

/-- Queue-level state of the write cache used by `writev` / `send_writes` /
`flush_thread`: the pending `work` jobs (modelled as `(lba, bytes)`), the
count of in-flight journal writes and the configured batch size. -/
structure WcPipe where
  work : List (Nat × Nat)
  outstanding_writes : Nat
  write_batch : Nat
deriving DecidableEq, Repr

/-- `write_cache_impl::send_writes` at queue level
(src/write_cache.cc:715-751): drain the whole `work` queue into one batched
request and count it as outstanding.  Returns the new state and the batch
handed to the `wcache_write_req`. -/
def wcSendWrites (p : WcPipe) : WcPipe × List (Nat × Nat) :=
  ({ p with work := [], outstanding_writes := p.outstanding_writes + 1 }, p.work)

/-- `write_cache_impl::writev(req, lba, iov)` (src/write_cache.cc:753-761):
push the job, then dispatch if `outstanding_writes == 0` or
`work.size() >= write_batch`.  The second component is the dispatched
batch, `none` when the job stays queued. -/
def wcWritev (p : WcPipe) (j : Nat × Nat) : WcPipe × Option (List (Nat × Nat)) :=
  let p1 := { p with work := p.work ++ [j] }
  if p1.outstanding_writes = 0 ∨ p1.write_batch ≤ p1.work.length then
    ((wcSendWrites p1).1, some (wcSendWrites p1).2)
  else (p1, none)

/-- One wakeup of `write_cache_impl::flush_thread`
(src/write_cache.cc:428-439): dispatch the queue when there are no
outstanding journal writes and the queue is non-empty. -/
def wcFlushTick (p : WcPipe) : WcPipe × Option (List (Nat × Nat)) :=
  if p.outstanding_writes = 0 ∧ 0 < p.work.length then
    ((wcSendWrites p).1, some (wcSendWrites p).2)
  else (p, none)

/-- The map-update loop of `wcache_write_req::notify`
(src/write_cache.cc:256-269): for each job `(lba, sectors)` the forward map
gets `[lba, lba+sectors) → plba` and the reverse map
`[plba, plba+sectors) → lba`, with `plba` advancing.  The source declares a
`garbage` vector and trims the reverse map over it afterwards, but passes
`NULL` to `map.update`, so `garbage` stays empty and the trim loop does
nothing; the embedding reproduces that. -/
def wcNotifyApply (fwd rmap : List (Extent Nat)) (plba : Nat)
    (work : List (Nat × Nat)) : List (Extent Nat) × List (Extent Nat) :=
  let r := work.foldl
    (fun (acc : List (Extent Nat) × List (Extent Nat) × Nat) (w : Nat × Nat) =>
      let garbage : List (Extent Nat) := []   -- map.update is called with NULL
      let m' := (Extmap.update extShiftNat acc.1 w.1 (w.1 + w.2) acc.2.2).1
      let r' := (Extmap.update extShiftNat acc.2.1 acc.2.2 (acc.2.2 + w.2) w.1).1
      let r'' := garbage.foldl (fun rm g => Extmap.trim extShiftNat rm g.base g.limit) r'
      (m', r'', acc.2.2 + w.2))
    (fwd, rmap, plba)
  (r.1, r.2.1)

/-- Journal page types tracked in `cache_blocks[]`
(src/write_cache.cc:69-76). -/
inductive WPageType
  | NONE
  | HDR
  | PAD
  | DATA
deriving DecidableEq, Repr

/-- One `page_desc` cell of `cache_blocks[]`. -/
structure WPageDesc where
  t : WPageType
  n_pages : Nat
deriving DecidableEq, Repr

/-- What `write_cache_impl::write_checkpoint` persists
(src/write_cache.cc:466-552), restricted to the fields the recovery
contract depends on: the superblock `next` and the `j_length` record
boundary list. -/
structure WCkptResult where
  next : Nat
  lengths : List (Nat × Nat)
deriving DecidableEq, Repr

/-- `write_cache_impl::write_checkpoint`: the boundary list keeps cell `i`
iff `cache_blocks[i-base]` is a HDR and `i < next_acked ∨ i ≥ oldest`
(src/write_cache.cc:476-481), and the persisted super has
`super_copy->next = next_acked_page` (src/write_cache.cc:525) —
`speculative_next`, the in-memory `super->next`, is not written back. -/
def wcWriteCkpt (blocks : List WPageDesc) (base limit oldest : Nat)
    (speculative_next next_acked : Nat) : WCkptResult :=
  { next := next_acked + 0 * speculative_next,
    lengths := (List.range (limit - base)).filterMap fun k =>
      match blocks.get? k with
      | some d =>
          if d.t = WPageType.HDR ∧ (base + k < next_acked ∨ oldest ≤ base + k) then
            some (base + k, d.n_pages)
          else none
      | none => none }

/-- `write_cache_impl::async_read(offset, buf, bytes)`
(src/write_cache.cc:769-796).  Returns `(skip_len, read_len, request)`
where the request is the NVMe read's byte offset (`512 * plba`), made only
when `read_len` is non-zero. -/
def wcAsyncRead (m : List (Extent Nat)) (offset bytes : Nat) :
    Nat × Nat × Option Nat :=
  let base := offset / 512
  let limit := base + bytes / 512
  match Extmap.lookup m base with
  | none => (bytes, 0, none)
  | some e =>
    if limit ≤ e.base then (bytes, 0, none)
    else
      let b := max e.base base
      let l := min e.limit limit
      let plba := extShiftNat e.val (b - e.base)
      let skip := if base < e.base then 512 * (b - base) else 0
      let rd := 512 * (l - b)
      (skip, rd, if rd ≠ 0 then some (512 * plba) else none)

/-! ## Translation layer (`src/lsvd_rbd.cc`) -/

/-- `2^32`, the modulus of the `uint32_t` arithmetic on `live_sectors`. -/
def U32 : Nat := 4294967296

/-- One iteration of the displaced-extent loop in
`translate::worker_thread` (src/lsvd_rbd.cc:411-415): for a displaced
extent `d` with `d.val.obj != seq`, `object_info[d.val.obj].live -=
(limit - base)` in `uint32_t` arithmetic; extents of the batch's own
object are skipped.  `object_info` is modelled as a total function
defaulting to 0 (`std::map::operator[]` value-initializes). -/
def liveDec (seq : Nat) (info : Nat → Nat) (d : Extent ObjOff) : Nat → Nat :=
  if d.val.obj = seq then info
  else fun o =>
    if o = d.val.obj then (info o + (U32 - (d.limit - d.base) % U32)) % U32
    else info o

/-- One entry of the batch-application loop in `translate::worker_thread`
(src/lsvd_rbd.cc:406-416): update the object map with
`[lba, lba+len) → (seq, offset)` and fold the `live_sectors` decrement
over the displaced extents.  (`offset` stays `hdr_sectors` for every
entry, exactly as in the source, which never advances it.) -/
def workerApplyEntry (seq off : Nat)
    (st : List (Extent ObjOff) × (Nat → Nat)) (e : Nat × Nat) :
    List (Extent ObjOff) × (Nat → Nat) :=
  let u := Extmap.update extShiftOO st.1 e.1 (e.1 + e.2) ⟨seq, off⟩
  (u.1, u.2.foldl (liveDec seq) st.2)

/-- The whole map-application loop of `translate::worker_thread` over a
sealed batch's entries. -/
def workerApplyBatch (seq off : Nat)
    (st : List (Extent ObjOff) × (Nat → Nat)) (entries : List (Nat × Nat)) :
    List (Extent ObjOff) × (Nat → Nat) :=
  entries.foldl (workerApplyEntry seq off) st

/-- Where one delivered sector of `translate::read` comes from. -/
inductive TSrc
  | zero
  | inmem (obj soff : Nat)
  | obj (obj soff : Nat)
deriving DecidableEq, Repr

/-- One region pushed by `translate::read` (src/lsvd_rbd.cc:620-644):
`zfill n` is an unmapped gap (`obj = -1`, `memset 0`), `inmem` is served
from a not-yet-written batch buffer (`obj = -2`), `readObj` is a backend
`read_numbered_object`.  Lengths are in sectors. -/
inductive TRegion
  | zfill (n : Nat)
  | inmem (obj soff n : Nat)
  | readObj (obj soff n : Nat)
deriving DecidableEq, Repr

/-- Length in sectors of a region. -/
def regionLen : TRegion → Nat
  | .zfill n => n
  | .inmem _ _ n => n
  | .readObj _ _ n => n

/-- The source of the `k`-th sector inside a region. -/
def regionSrcAt : TRegion → Nat → TSrc
  | .zfill _, _ => .zero
  | .inmem o s _, k => .inmem o (s + k)
  | .readObj o s _, k => .obj o (s + k)

/-- Total length in sectors of a region list. -/
def totalLen (rs : List TRegion) : Nat := (rs.map regionLen).sum

/-- The source of absolute sector `s` given regions laid out consecutively
from sector `pos`; `none` when the regions do not reach `s` (that part of
the caller's buffer is never written). -/
def sectorAt : List TRegion → Nat → Nat → Option TSrc
  | [], _, _ => none
  | r :: rs, pos, s =>
    if s < pos + regionLen r then
      if pos ≤ s then some (regionSrcAt r (s - pos)) else none
    else sectorAt rs (pos + regionLen r) s

/-- The region for one clipped map hit: from the in-memory batch buffer
when the object is still in `in_mem_objects`, else a backend read
(src/lsvd_rbd.cc:634-641). -/
def hitRegion (inmem : List Nat) (o soff n : Nat) : TRegion :=
  if inmem.contains o then .inmem o soff n else .readObj o soff n

/-- The per-extent loop of `translate::read` (src/lsvd_rbd.cc:627-644):
for each clipped hit, push a `zfill` for the gap since `prev`, then the
hit's region; `prev` advances to the hit's clipped limit.  No trailing
region is pushed after the last hit. -/
def trWalk (inmem : List Nat) (base limit : Nat) :
    List (Extent ObjOff) → Nat → List TRegion
  | [], _ => []
  | e :: rest, prev =>
    let b := max e.base base
    let l := min e.limit limit
    let v := extShiftOO e.val (b - e.base)
    (if prev < b then [TRegion.zfill (b - prev)] else []) ++
    (hitRegion inmem v.obj v.offset (l - b) :: trWalk inmem base limit rest l)

/-- The map hits `translate::read` iterates over: from `lookup(base)`
(first extent with `limit > base`) while `it->base() < limit`. -/
def hitsOf (m : List (Extent ObjOff)) (base limit : Nat) : List (Extent ObjOff) :=
  (m.dropWhile (fun e => decide (e.limit ≤ base))).takeWhile
    (fun e => decide (e.base < limit))

/-- `translate::read(offset, len, buf)` (src/lsvd_rbd.cc:610-660): if the
object map is empty the whole buffer is zero-filled and `len` returned;
otherwise the regions are executed in order and the return value is
`ptr - buf`, the number of bytes the regions cover. -/
def translateRead (m : List (Extent ObjOff)) (inmem : List Nat)
    (offset len : Nat) : List TRegion × Nat :=
  let base := offset / 512
  let limit := base + len / 512
  if m.isEmpty then ([TRegion.zfill (len / 512)], len)
  else
    let rs := trWalk inmem base limit (hitsOf m base limit) base
    (rs, 512 * totalLen rs)

/-- The clipped limit of the last hit (where `translate::read` stops
writing), or `prev` when there is no hit. -/
def lastLimit (hits : List (Extent ObjOff)) (prev limit : Nat) : Nat :=
  match hits.getLast? with
  | none => prev
  | some e => min e.limit limit

/-! ## Read cache (`src/lsvd_rbd.cc`, class `read_cache`) -/

/-- The bit-setting loop of `read_cache::page_mask`
(src/lsvd_rbd.cc:733-734): `for (i = base_page % unit_page; base_page <
limit_page; base_page++, i++) val |= (1 << i)`.  Also returns the list of
shift amounts performed, to reason about shift positions. -/
def pmLoop (bp lp i val : Nat) : Nat × List Nat :=
  if h : bp < lp then
    let r := pmLoop (bp + 1) lp (i + 1) (val ||| (1 <<< i))
    (r.1, i :: r.2)
  else (val, [])
termination_by lp - bp

/-- `read_cache::page_mask(base, limit, unit)` (src/lsvd_rbd.cc:727-736). -/
def page_mask (base limit unit : Nat) : Nat :=
  (pmLoop (base / 8) (divRoundUp (min limit (roundUp (base + 1) unit)) 8)
    ((base / 8) % (unit / 8)) 0).1

/-- The shift amounts `page_mask` performs on the same inputs. -/
def pageMaskShifts (base limit unit : Nat) : List Nat :=
  (pmLoop (base / 8) (divRoundUp (min limit (roundUp (base + 1) unit)) 8)
    ((base / 8) % (unit / 8)) 0).2

/-- State of the read cache (src/lsvd_rbd.cc:699-721): the admitted-chunk
hash (`std::map<obj_offset,int>`, as an association list), the free-slot
list, per-slot validity bitmaps and `flat_map`, plus the log of device
writes performed by `add` (byte offset, page count).  `base` is
`super->base`.  The chunk size is the asserted `unit_sectors == 128`
(16 pages per slot). -/
structure RCState where
  base : Nat
  rmap : List (ObjOff × Nat)
  free_blks : List Nat
  bitmap : List Nat
  flat_map : List ObjOff
  writes : List (Nat × Nat)
deriving DecidableEq, Repr

/-- `map.find(key)` on the admitted-chunk hash. -/
def rcFind (m : List (ObjOff × Nat)) (k : ObjOff) : Option Nat :=
  (m.find? (fun p => decide (p.1 = k))).map (fun p => p.2)

/-- `map[key] = v` on the admitted-chunk hash. -/
def rcInsert (m : List (ObjOff × Nat)) (k : ObjOff) (v : Nat) :
    List (ObjOff × Nat) :=
  if m.any (fun p => decide (p.1 = k)) then
    m.map (fun p => if p.1 = k then (k, v) else p)
  else m ++ [(k, v)]

/-- The page loop of `read_cache::add` (src/lsvd_rbd.cc:822-828):
starting at page index `i` within the chunk, set mask bits and consume 8
sectors per page while `sectors > 0 && i < 16`.  Returns
`(mask, sectors, oo.offset, iov-entry count)` after the loop. -/
def rcAddInner (mask i sectors off : Nat) : Nat × Nat × Nat × Nat :=
  if h : 0 < sectors ∧ i < 16 then
    let r := rcAddInner (mask ||| (1 <<< i)) (i + 1) (sectors - 8) (off + 8)
    (r.1, r.2.1, r.2.2.1, r.2.2.2 + 1)
  else (mask, sectors, off, 0)
termination_by 16 - i

/-- The page loop never increases the remaining sector count. -/
theorem rcAddInner_le (mask i sectors off : Nat) :
    (rcAddInner mask i sectors off).2.1 ≤ sectors := by
  unfold rcAddInner
  split
  · rename_i h
    have ih := rcAddInner_le (mask ||| (1 <<< i)) (i + 1) (sectors - 8) (off + 8)
    simpa using le_trans ih (by omega)
  · exact le_refl _
termination_by 16 - i

/-- When the page loop runs at least one iteration it consumes at least
8 sectors. -/
theorem rcAddInner_run (mask i sectors off : Nat) (hs : 0 < sectors)
    (hi : i < 16) : (rcAddInner mask i sectors off).2.1 ≤ sectors - 8 := by
  rw [rcAddInner]
  rw [dif_pos ⟨hs, hi⟩]
  simpa using rcAddInner_le (mask ||| (1 <<< i)) (i + 1) (sectors - 8) (off + 8)

/-- The body of one outer iteration of `read_cache::add`
(src/lsvd_rbd.cc:809-842) once a slot `cb` has been selected: run the page
loop from page `oo.offset/8 - (oo.offset/128)*16` within the chunk, log
the `pwritev`, publish the mask, hash entry and `flat_map` entry, and
return the advanced `(oo, sectors)` for the next outer iteration. -/
def rcAddCont (st : RCState) (oo : ObjOff) (sectors cb : Nat)
    (free' : List Nat) : RCState × ObjOff × Nat :=
  let ublk : ObjOff := ⟨oo.obj, oo.offset / 128⟩
  let i0 := oo.offset / 8 - (oo.offset / 128) * 16
  let r := rcAddInner (st.bitmap.getD cb 0) i0 sectors oo.offset
  ({ st with
      rmap := rcInsert st.rmap ublk cb
      bitmap := st.bitmap.set cb r.1
      flat_map := st.flat_map.set cb ublk
      free_blks := free'
      writes := st.writes ++ [((cb * 16 + st.base + i0) * 4096, r.2.2.2)] },
   ⟨oo.obj, r.2.2.1⟩, r.2.1)

/-- Each outer iteration of `read_cache::add` strictly decreases the
remaining sector count. -/
theorem rcAddCont_sectors (st : RCState) (oo : ObjOff) (sectors cb : Nat)
    (free' : List Nat) (hs : 0 < sectors) :
    (rcAddCont st oo sectors cb free').2.2 < sectors := by
  have hi : oo.offset / 8 - (oo.offset / 128) * 16 < 16 := by omega
  have h2 := rcAddInner_run (st.bitmap.getD cb 0)
    (oo.offset / 8 - (oo.offset / 128) * 16) sectors oo.offset hs hi
  have h3 : (rcAddCont st oo sectors cb free').2.2 =
      (rcAddInner (st.bitmap.getD cb 0)
        (oo.offset / 8 - (oo.offset / 128) * 16) sectors oo.offset).2.1 := rfl
  omega

/-- `read_cache::add(oo, sectors, buf)` (src/lsvd_rbd.cc:791-844).  Per
outer iteration: look the chunk key up in the hash; on a miss take the
back of the free list (`back()` + `pop_back()`); when the hash misses and
the free list is empty, return with the state untouched. -/
def rcAdd (st : RCState) (oo : ObjOff) (sectors : Nat) : RCState :=
  if h : 0 < sectors then
    match rcFind st.rmap ⟨oo.obj, oo.offset / 128⟩, st.free_blks.getLast? with
    | some cb, _ =>
      let c := rcAddCont st oo sectors cb st.free_blks
      rcAdd c.1 c.2.1 c.2.2
    | none, some cb =>
      let c := rcAddCont st oo sectors cb st.free_blks.dropLast
      rcAdd c.1 c.2.1 c.2.2
    | none, none => st
  else st
termination_by sectors
decreasing_by
  · exact rcAddCont_sectors st oo sectors cb st.free_blks h
  · exact rcAddCont_sectors st oo sectors cb st.free_blks.dropLast h

/-- One delivered piece of `read_cache::read` (src/lsvd_rbd.cc:851-933):
`zfill` for `memset(.., 0, ..)`, `ssd` for a `pread` of the cache device
at sector `start`, `fromBackend` for the bytes copied out of a
`read_numbered_object` of object `obj` starting at object sector `soff`.
Lengths are in sectors. -/
inductive RChunk
  | zfill (n : Nat)
  | ssd (start n : Nat)
  | fromBackend (obj soff n : Nat)
deriving DecidableEq, Repr

/-- The intra-extent chunk loop of `read_cache::read`
(src/lsvd_rbd.cc:872-922), with `unit_sectors = 128` (asserted by the
constructor).  `sectors` is the total request size in sectors (the source
uses it unchanged inside the loop).  A chunk is a hit when the hash maps
it to slot `n` and `page_mask(blk_offset, blk_top, 128)` is contained in
`bitmap[n]`; otherwise the whole chunk is fetched from the backend and
queued for admission.  The loop advances `base` and `ptr.offset` by the
delivered length; `fuel` bounds the iteration count (`limit - base`
suffices since each iteration delivers at least one sector). -/
def rcReadInner (st : RCState) (sectors : Nat) :
    Nat → Nat → Nat → Nat → Nat → List RChunk × List (ObjOff × Nat)
  | 0, _, _, _, _ => ([], [])
  | fuel + 1, base, limit, pobj, poff =>
    if base < limit then
      let ublk := poff / 128
      let blk_base_lba := ublk * 128
      let blk_offset := poff % 128
      let blk_top := min (blk_offset + sectors)
        (min (roundUp (blk_offset + 1) 128) (blk_offset + (limit - base)))
      let n := blk_top - blk_offset
      let hit : Option Nat :=
        match rcFind st.rmap ⟨pobj, ublk⟩ with
        | some s =>
          let am := page_mask blk_offset blk_top 128
          if am &&& st.bitmap.getD s 0 = am then some s else none
        | none => none
      match hit with
      | some s =>
        let r := rcReadInner st sectors fuel (base + n) limit pobj (poff + n)
        (RChunk.ssd (st.base * 8 + s * 128 + blk_offset) n :: r.1, r.2)
      | none =>
        let r := rcReadInner st sectors fuel (base + n) limit pobj (poff + n)
        (RChunk.fromBackend pobj (blk_base_lba + blk_offset) n :: r.1,
         (⟨pobj, ublk * 128⟩, 128) :: r.2)
    else ([], [])

/-- The per-extent loop of `read_cache::read` (src/lsvd_rbd.cc:862-926):
zero-fill the gap before each clipped hit, run the chunk loop over the
hit, and zero-fill whatever of the request remains after the last hit.
`lba` is the cursor, `rem` the not-yet-delivered sector count. -/
def rcReadExts (st : RCState) (sectors : Nat) :
    List (Extent ObjOff) → Nat → Nat → List RChunk × List (ObjOff × Nat)
  | [], _, rem => (if 0 < rem then [RChunk.zfill rem] else [], [])
  | e :: rest, lba, rem =>
    let gap := if lba < e.base then e.base - lba else 0
    let gchunks : List RChunk := if lba < e.base then [RChunk.zfill gap] else []
    let inner := rcReadInner st sectors (e.limit - e.base) e.base e.limit
      e.val.obj e.val.offset
    let used := gap + ((inner.1.map (fun c => match c with
      | RChunk.zfill n => n | RChunk.ssd _ n => n
      | RChunk.fromBackend _ _ n => n)).sum)
    let r := rcReadExts st sectors rest e.limit (rem - used)
    (gchunks ++ inner.1 ++ r.1, inner.2 ++ r.2)

/-- `read_cache::read(offset, len, buf)` (src/lsvd_rbd.cc:851-933): look
the object map up over `[lba, lba+sectors)` (clipped hits), deliver every
sector, and return the admission list built on misses.  Admissions run
only after the delivery is complete. -/
def rcRead (st : RCState) (m : List (Extent ObjOff)) (offset len : Nat) :
    List RChunk × List (ObjOff × Nat) :=
  let lba := offset / 512
  let sectors := len / 512
  let hits := (hitsOf m lba (lba + sectors)).map
    (fun e => Extmap.clipExt extShiftOO e lba (lba + sectors))
  rcReadExts st sectors hits lba sectors

/-- `read_cache::read` followed by the trailing admission loop
(src/lsvd_rbd.cc:929-932): `add` each queued chunk.  The delivered chunk
list is computed before any admission. -/
def rcReadFull (st : RCState) (m : List (Extent ObjOff)) (offset len : Nat) :
    (List RChunk × List (ObjOff × Nat)) × RCState :=
  let r := rcRead st m offset len
  (r, r.2.foldl (fun s p => rcAdd s p.1 p.2) st)

/-! ## Claim theorems -/

/-- C5: `write_cache_impl::allocate(n)` returns `n` contiguous journal
pages starting at the pre-call `super->next` whenever `limit - next ≥ n`;
otherwise it reports a PAD of `n_pad = limit - next` pages at the old
`next`, sets `next = base`, and returns the allocation at `base`; in both
cases `super->next` then advances by `n` from the allocated page (wrapping
to `base` when it reaches `limit`), and the allocated record never crosses
the ring limit. -/
theorem wc_allocate_ring (base limit next n : Nat)
    (hbn : base ≤ next) (hnl : next ≤ limit) (hn : 0 < n)
    (hcap : n ≤ limit - base) :
    (n ≤ limit - next →
      (wcAllocate base limit next n).val = next ∧
      (wcAllocate base limit next n).pad = 0 ∧
      (wcAllocate base limit next n).n_pad = 0) ∧
    (limit - next < n →
      (wcAllocate base limit next n).pad = next ∧
      (wcAllocate base limit next n).n_pad = limit - next ∧
      (wcAllocate base limit next n).val = base) ∧
    (wcAllocate base limit next n).next =
      (if (wcAllocate base limit next n).val + n = limit then base
       else (wcAllocate base limit next n).val + n) ∧
    (wcAllocate base limit next n).val + n ≤ limit := by
  by_cases hc : limit - next < n
  · exact ⟨fun h => absurd h (by omega), fun _ => by simp [wcAllocate, hc],
      by simp [wcAllocate, hc], by simp [wcAllocate, hc]; omega⟩
  · exact ⟨fun _ => by simp [wcAllocate, hc], fun h => absurd h hc,
      by simp [wcAllocate, hc], by simp [wcAllocate, hc]; omega⟩

/-- Witness for C5: both branches at concrete inputs. -/
theorem wc_allocate_ring_witness :
    ((wcAllocate 0 10 8 4).pad = 8 ∧ (wcAllocate 0 10 8 4).n_pad = 2 ∧
     (wcAllocate 0 10 8 4).val = 0) ∧
    (wcAllocate 0 10 8 4).val + 4 ≤ 10 ∧
    ((wcAllocate 0 10 3 4).val = 3 ∧ (wcAllocate 0 10 3 4).pad = 0) := by
  have h1 := wc_allocate_ring 0 10 8 4 (by decide) (by decide) (by decide) (by decide)
  have h2 := wc_allocate_ring 0 10 3 4 (by decide) (by decide) (by decide) (by decide)
  exact ⟨h1.2.1 (by decide), h1.2.2.2, (h2.1 (by decide)).1, (h2.1 (by decide)).2.1⟩

/-- C9: `write_cache_impl::notify_complete(start, len)` removes
`(start, len)` from `outstanding` and then takes the front of the
remaining list as `next_acked_page`; the front access is well-defined
(the `none` branch of the embedding is unreachable) exactly when the list
is still non-empty after the removal, so when `(start, len)` was the sole
outstanding record the front access is on an empty list. -/
theorem wc_notify_complete_front (l : List (Nat × Nat)) (s n : Nat)
    (hmem : (s, n) ∈ l) :
    ((notifyComplete l s n).isSome ↔ l.erase (s, n) ≠ []) ∧
    (l = [(s, n)] → notifyComplete l s n = none) ∧
    (∀ x rest, l.erase (s, n) = x :: rest →
      notifyComplete l s n = some (x :: rest, x.1)) := by
  refine ⟨?_, ?_, ?_⟩
  · unfold notifyComplete
    cases h : l.erase (s, n) <;> simp
  · intro h
    subst h
    simp [notifyComplete]
  · intro x rest h
    unfold notifyComplete
    rw [h]

/-- Witness for C9: removing one of two outstanding records leaves the
other as the new front; removing the sole record hits the empty front. -/
theorem wc_notify_complete_front_witness :
    notifyComplete [(1, 2), (3, 4)] 1 2 = some ([(3, 4)], 3) ∧
    notifyComplete [(5, 6)] 5 6 = none := by
  refine ⟨(wc_notify_complete_front [(1, 2), (3, 4)] 1 2 (by decide)).2.2
      (3, 4) [] (by decide), ?_⟩
  exact (wc_notify_complete_front [(5, 6)] 5 6 (by decide)).2.1 rfl

/-- C10: `write_cache_impl::writev` always appends the job to the pending
queue; it dispatches the accumulated batch (calls `send_writes`) before
returning exactly when `outstanding_writes == 0` or the queue length has
reached `write_batch`; otherwise the job stays queued, and a later
`flush_thread` wakeup with no outstanding writes dispatches it. -/
theorem wc_writev_dispatch (p : WcPipe) (j : Nat × Nat) :
    ((wcWritev p j).2.isSome ↔
      (p.outstanding_writes = 0 ∨ p.write_batch ≤ p.work.length + 1)) ∧
    (∀ b, (wcWritev p j).2 = some b →
      b = p.work ++ [j] ∧ (wcWritev p j).1.work = []) ∧
    ((wcWritev p j).2 = none → (wcWritev p j).1.work = p.work ++ [j]) ∧
    (∀ q : WcPipe, q.outstanding_writes = 0 → q.work ≠ [] →
      (wcFlushTick q).2 = some q.work) := by
  refine ⟨?_, ?_, ?_, ?_⟩
  · by_cases hc : p.outstanding_writes = 0 ∨ p.write_batch ≤ p.work.length + 1
    · simp [wcWritev, wcSendWrites, hc]
    · simp only [wcWritev]
      rw [if_neg (by simpa using hc)]
      simpa using hc
  · intro b hb
    by_cases hc : p.outstanding_writes = 0 ∨ p.write_batch ≤ p.work.length + 1
    · simp only [wcWritev] at hb ⊢
      rw [if_pos (by simpa using hc)] at hb ⊢
      simp [wcSendWrites] at hb ⊢
      exact hb.symm
    · simp only [wcWritev] at hb
      rw [if_neg (by simpa using hc)] at hb
      exact absurd hb (by simp)
  · intro hnone
    by_cases hc : p.outstanding_writes = 0 ∨ p.write_batch ≤ p.work.length + 1
    · simp only [wcWritev] at hnone
      rw [if_pos (by simpa using hc)] at hnone
      exact absurd hnone (by simp)
    · simp only [wcWritev]
      rw [if_neg (by simpa using hc)]
  · intro q h0 hne
    have : 0 < q.work.length := List.length_pos.mpr hne
    simp [wcFlushTick, wcSendWrites, h0, this]

/-- Witness for C10: with three writes outstanding and batch size two, the
second queued job triggers a dispatch of both jobs; a flush tick with no
outstanding writes dispatches a queued job. -/
theorem wc_writev_dispatch_witness :
    ((wcWritev ⟨[(0, 512)], 3, 2⟩ (8, 512)).2 = some [(0, 512), (8, 512)] →
      [(0, 512), (8, 512)] = [(0, 512)] ++ [(8, 512)]) ∧
    (wcFlushTick ⟨[(1, 512)], 0, 8⟩).2 = some [(1, 512)] := by
  refine ⟨fun hb => ((wc_writev_dispatch ⟨[(0, 512)], 3, 2⟩ (8, 512)).2.1
      [(0, 512), (8, 512)] hb).1, ?_⟩
  exact (wc_writev_dispatch ⟨[], 0, 0⟩ (0, 0)).2.2.2 ⟨[(1, 512)], 0, 8⟩ rfl (by decide)

/-- C1 (code bug): after two journalled writes of LBA 0 (8 sectors) landing
at physical sectors 100 and then 200, the map-update loop of
`wcache_write_req::notify` leaves the reverse map still covering sector
100 → LBA 0, while the forward map maps LBA 0 only to 200 and no forward
entry's physical image contains 100 — a reverse-map entry that is not the
image of any forward-map entry, because `notify` passes `NULL` to
`map.update` and its `garbage` trim loop therefore never runs. -/
theorem wc_notify_stale_reverse_entry :
    Extmap.valAt extShiftNat
      (wcNotifyApply (wcNotifyApply [] [] 100 [(0, 8)]).1
        (wcNotifyApply [] [] 100 [(0, 8)]).2 200 [(0, 8)]).2 100 = some 0 ∧
    (wcNotifyApply (wcNotifyApply [] [] 100 [(0, 8)]).1
        (wcNotifyApply [] [] 100 [(0, 8)]).2 200 [(0, 8)]).1 =
      [⟨0, 8, 200⟩] ∧
    ∀ f ∈ (wcNotifyApply (wcNotifyApply [] [] 100 [(0, 8)]).1
        (wcNotifyApply [] [] 100 [(0, 8)]).2 200 [(0, 8)]).1,
      ¬(f.val ≤ 100 ∧ 100 < f.val + (f.limit - f.base)) := by
  decide

/-- `cache_blocks[]` configuration for C2: an acked record at pages 0-1
(`next_acked_page = 2`) and a record at pages 2-4 whose NVMe write is
still outstanding (`super->next = 5`, `oldest = base = 0`). -/
def c2blocks : List WPageDesc :=
  [⟨WPageType.HDR, 2⟩, ⟨WPageType.DATA, 0⟩, ⟨WPageType.HDR, 3⟩,
   ⟨WPageType.DATA, 0⟩, ⟨WPageType.DATA, 0⟩, ⟨WPageType.NONE, 0⟩,
   ⟨WPageType.NONE, 0⟩, ⟨WPageType.NONE, 0⟩]

/-- C2 (code bug): `write_checkpoint` does persist
`next = next_acked_page` (for any speculative in-memory `next`), but its
boundary filter `i < next_acked || i >= oldest` accepts — in the unwrapped
state `oldest ≤ next_acked` — the HDR at page 2 whose SSD write has not
completed: the persisted `j_length` list is `[(0,2), (2,3)]`, containing a
record boundary that is not below `next_acked_page = 2`. -/
theorem wc_ckpt_persists_inflight_boundary :
    (wcWriteCkpt c2blocks 0 8 0 5 2).next = 2 ∧
    (wcWriteCkpt c2blocks 0 8 0 7 2).next = 2 ∧
    (wcWriteCkpt c2blocks 0 8 0 5 2).lengths = [(0, 2), (2, 3)] ∧
    (2, 3) ∈ (wcWriteCkpt c2blocks 0 8 0 5 2).lengths ∧ ¬((2 : Nat) < 2) := by
  decide

/-- C4: `write_cache_impl::async_read(offset, buf, bytes)` over
`[base, limit) = [offset/512, offset/512 + bytes/512)`: if no forward-map
extent overlaps the range, the whole request is skip bytes with no read
request; if the first overlapping extent starts at or before `base`, its
clipped length is returned as read with an NVMe read request at byte
offset `plba * 512` (the clipped extent's physical address); otherwise the
gap from `base` to the extent's start is returned as skip followed by the
extent's clipped length as read. -/
theorem wc_async_read_first_extent (m : List (Extent Nat)) (offset bytes : Nat)
    (hwf : Extmap.WF m) (hb : 512 ≤ bytes) :
    ((∀ e ∈ m, ¬(e.base < offset / 512 + bytes / 512 ∧ offset / 512 < e.limit)) →
        wcAsyncRead m offset bytes = (bytes, 0, none)) ∧
    (∀ e, Extmap.lookup m (offset / 512) = some e →
      e.base < offset / 512 + bytes / 512 →
      ((e.base ≤ offset / 512 →
          wcAsyncRead m offset bytes =
            (0, 512 * (min e.limit (offset / 512 + bytes / 512) - offset / 512),
             some (512 * (e.val + (offset / 512 - e.base))))) ∧
       (offset / 512 < e.base →
          wcAsyncRead m offset bytes =
            (512 * (e.base - offset / 512),
             512 * (min e.limit (offset / 512 + bytes / 512) - e.base),
             some (512 * e.val))))) := by
  constructor
  · intro hno
    cases hl : Extmap.lookup m (offset / 512) with
    | none => simp [wcAsyncRead, hl]
    | some e =>
      have hmem : e ∈ m := List.mem_of_find?_eq_some hl
      have hpred : offset / 512 < e.limit := by
        have := List.find?_some hl
        simpa using this
      have hge : offset / 512 + bytes / 512 ≤ e.base := by
        have := hno e hmem
        omega
      simp [wcAsyncRead, hl, hge]
  · intro e hl hbl
    have hmem : e ∈ m := List.mem_of_find?_eq_some hl
    have hpred : offset / 512 < e.limit := by
      have := List.find?_some hl
      simpa using this
    have hbe : e.base < e.limit := hwf.2 e hmem
    have hsec : 1 ≤ bytes / 512 := Nat.le_div_iff_mul_le (by omega) |>.mpr (by omega)
    constructor
    · intro hle
      have h1 : ¬ (offset / 512 + bytes / 512 ≤ e.base) := by omega
      have h2 : ¬ (offset / 512 < e.base) := by omega
      have hmax : max e.base (offset / 512) = offset / 512 := by omega
      have hrd : 512 * (min e.limit (offset / 512 + bytes / 512) - max e.base (offset / 512)) ≠ 0 := by
        have : offset / 512 < min e.limit (offset / 512 + bytes / 512) := by omega
        omega
      simp only [wcAsyncRead, hl, extShiftNat]
      rw [if_neg h1, if_neg h2, if_pos hrd, hmax]
    · intro hgt
      have h1 : ¬ (offset / 512 + bytes / 512 ≤ e.base) := by omega
      have hmax : max e.base (offset / 512) = e.base := by omega
      have hrd : 512 * (min e.limit (offset / 512 + bytes / 512) - max e.base (offset / 512)) ≠ 0 := by
        have : e.base < min e.limit (offset / 512 + bytes / 512) := by omega
        omega
      simp only [wcAsyncRead, hl, extShiftNat]
      rw [if_neg h1, if_pos hgt, if_pos hrd, hmax]
      simp

/-- Witness for C4: on a one-extent map `[4,8) → 100`, a read of sectors
`[0,8)` skips the 4-sector gap, reads 4 clipped sectors and requests NVMe
offset `512 * 100`. -/
theorem wc_async_read_first_extent_witness :
    wcAsyncRead [⟨4, 8, 100⟩] 0 4096 = (2048, 2048, some 51200) := by
  have h := (wc_async_read_first_extent [⟨4, 8, 100⟩] 0 4096 (by decide)
      (by decide)).2 ⟨4, 8, 100⟩ (by decide) (by decide)
  have h2 := h.2 (by decide)
  simpa using h2

/-- Bits of the `page_mask` loop result: a bit is set iff it was already
set in the accumulator or its index is one of the `lp - bp` consecutive
shift positions starting at `i`. -/
theorem pmLoop_testBit (bp lp i v t : Nat) :
    (pmLoop bp lp i v).1.testBit t ↔
      (v.testBit t ∨ ∃ j, j < lp - bp ∧ t = i + j) := by
  rw [pmLoop]
  split
  · rename_i h
    rw [pmLoop_testBit (bp + 1) lp (i + 1) (v ||| (1 <<< i)) t]
    have hone : (1 <<< i) = 2 ^ i := by
      simp [Nat.shiftLeft_eq]
    constructor
    · rintro (hv | ⟨j, hj, rfl⟩)
      · rw [Nat.testBit_or] at hv
        rcases Bool.or_eq_true_iff.mp hv with h1 | h2
        · exact Or.inl h1
        · rw [hone] at h2
          by_cases hit : i = t
          · exact Or.inr ⟨0, by omega, by omega⟩
          · rw [Nat.testBit_two_pow_of_ne hit] at h2
            exact absurd h2 (by simp)
      · exact Or.inr ⟨j + 1, by omega, by omega⟩
    · rintro (hv | ⟨j, hj, rfl⟩)
      · exact Or.inl (by rw [Nat.testBit_or, hv]; simp)
      · rcases Nat.eq_zero_or_pos j with rfl | hjpos
        · refine Or.inl ?_
          rw [Nat.testBit_or, hone]
          simp [Nat.testBit_two_pow_self]
        · exact Or.inr ⟨j - 1, by omega, by omega⟩
  · rename_i h
    constructor
    · exact fun hv => Or.inl hv
    · rintro (hv | ⟨j, hj, rfl⟩)
      · exact hv
      · omega
termination_by lp - bp

/-- Every shift amount the `page_mask` loop performs lies in
`[i, i + (lp - bp))`. -/
theorem pmLoop_shift_bound (bp lp i v : Nat) :
    ∀ s ∈ (pmLoop bp lp i v).2, i ≤ s ∧ s < i + (lp - bp) := by
  rw [pmLoop]
  split
  · rename_i h
    intro s hs
    simp only [List.mem_cons] at hs
    rcases hs with rfl | hs
    · omega
    · have := pmLoop_shift_bound (bp + 1) lp (i + 1) (v ||| (1 <<< i)) s hs
      omega
  · intro s hs
    simp at hs
termination_by lp - bp

/-- The `page_mask` loop keeps the mask within 16 bits as long as all its
shift positions stay below 16. -/
theorem pmLoop_lt (bp lp i v : Nat) (hv : v < 2 ^ 16)
    (hcap : i + (lp - bp) ≤ 16) : (pmLoop bp lp i v).1 < 2 ^ 16 := by
  rw [pmLoop]
  split
  · rename_i h
    refine pmLoop_lt (bp + 1) lp (i + 1) (v ||| (1 <<< i))
      (Nat.or_lt_two_pow hv ?_) (by omega)
    have hone : (1 <<< i) = 2 ^ i := by simp [Nat.shiftLeft_eq]
    rw [hone]
    exact Nat.pow_lt_pow_right (by norm_num) (by omega)
  · exact hv
termination_by lp - bp

/-- C8: for any `base < limit` inside read-cache chunk `k` (unit = 128
sectors), `read_cache::page_mask` sets exactly the bits of the 4 KiB pages
of the chunk covered by `[base, limit)` — bit `t` is set iff page
`16k + t` intersects the range — every shift it performs is at a position
in `0..15`, and the mask fits in 16 bits. -/
theorem rc_page_mask_chunk (k base limit : Nat)
    (h1 : 128 * k ≤ base) (h2 : base < limit) (h3 : limit ≤ 128 * (k + 1)) :
    (∀ t, (page_mask base limit 128).testBit t ↔
      (base / 8 ≤ 16 * k + t ∧ 8 * (16 * k + t) < limit)) ∧
    (∀ s ∈ pageMaskShifts base limit 128, s < 16) ∧
    page_mask base limit 128 < 65536 := by
  have htop : roundUp (base + 1) 128 = 128 * (k + 1) := by
    unfold roundUp divRoundUp
    omega
  have hmin : min limit (roundUp (base + 1) 128) = limit := by omega
  have hlp : divRoundUp limit 8 = (limit + 7) / 8 := rfl
  have hup : (128 : Nat) / 8 = 16 := by norm_num
  have hbp1 : 16 * k ≤ base / 8 := by omega
  have hbp2 : base / 8 < 16 * (k + 1) := by omega
  have hi0 : (base / 8) % 16 = base / 8 - 16 * k := by omega
  have hlp2 : (limit + 7) / 8 ≤ 16 * (k + 1) := by omega
  have hbplp : base / 8 < (limit + 7) / 8 := by omega
  refine ⟨?_, ?_, ?_⟩
  · intro t
    unfold page_mask
    rw [hmin, hup, hlp, hi0]
    rw [pmLoop_testBit]
    simp only [Nat.zero_testBit, Bool.false_eq_true, false_or]
    constructor
    · rintro ⟨j, hj, rfl⟩
      omega
    · intro ⟨ha, hb⟩
      exact ⟨16 * k + t - base / 8, by omega, by omega⟩
  · intro s hs
    unfold pageMaskShifts at hs
    rw [hmin, hup, hlp, hi0] at hs
    have := pmLoop_shift_bound (base / 8) ((limit + 7) / 8)
      (base / 8 - 16 * k) 0 s hs
    omega
  · have := pmLoop_lt (base / 8) ((limit + 7) / 8) (base / 8 - 16 * k) 0
      (by norm_num) (by omega)
    unfold page_mask
    rw [hmin, hup, hlp, hi0]
    omega

/-- Witness for C8: chunk 3 (sectors `[384, 512)`), range `[400, 440)`
covers pages 2..6 of the chunk — mask `0b1111100 = 124`, shifts 2..6. -/
theorem rc_page_mask_chunk_witness :
    (page_mask 400 440 128).testBit 2 = true ∧
    (page_mask 400 440 128).testBit 1 = false ∧
    (page_mask 400 440 128).testBit 7 = false ∧
    (∀ s ∈ pageMaskShifts 400 440 128, s < 16) ∧
    page_mask 400 440 128 < 65536 := by
  have h := rc_page_mask_chunk 3 400 440 (by norm_num) (by norm_num) (by norm_num)
  refine ⟨?_, ?_, ?_, h.2.1, h.2.2⟩
  · exact (h.1 2).mpr (by norm_num)
  · rw [Bool.eq_false_iff]
    intro hb
    have := (h.1 1).mp hb
    omega
  · rw [Bool.eq_false_iff]
    intro hb
    have := (h.1 7).mp hb
    omega

/-- C6: when a translation-layer worker applies a sealed batch's entries
to the object map, the `live_sectors` table is folded with `liveDec` over
the displaced extents of each `update`; each displaced extent whose value
refers to an object other than the batch's `seq` decrements that object's
`live_sectors` by the extent's length in sectors (exactly, under no
`uint32` underflow), leaving every other object untouched; a displaced
extent of the batch's own object leaves the table unchanged. -/
theorem worker_live_sectors_accounting (seq off : Nat)
    (st : List (Extent ObjOff) × (Nat → Nat)) (e : Nat × Nat)
    (info : Nat → Nat) (d : Extent ObjOff) :
    ((workerApplyEntry seq off st e).2 =
      (Extmap.update extShiftOO st.1 e.1 (e.1 + e.2) ⟨seq, off⟩).2.foldl
        (liveDec seq) st.2) ∧
    (d.val.obj = seq → liveDec seq info d = info) ∧
    (d.val.obj ≠ seq → info d.val.obj < U32 →
      d.limit - d.base ≤ info d.val.obj →
      liveDec seq info d d.val.obj = info d.val.obj - (d.limit - d.base) ∧
      ∀ o, o ≠ d.val.obj → liveDec seq info d o = info o) := by
  refine ⟨rfl, ?_, ?_⟩
  · intro h
    simp [liveDec, h]
  · intro hne hlt hle
    have hlen : (d.limit - d.base) % U32 = d.limit - d.base := by
      have : d.limit - d.base < U32 := by
        unfold U32 at hlt ⊢
        omega
      exact Nat.mod_eq_of_lt this
    constructor
    · simp only [liveDec, if_neg hne, if_pos rfl, hlen]
      unfold U32 at hlt ⊢
      simp only [if_true]
      omega
    · intro o ho
      simp [liveDec, hne, ho]

/-- Witness for C6: a displaced extent of 8 sectors belonging to object 3
(batch seq 5) drops object 3's `live_sectors` from 100 to 92 and leaves
object 9 untouched; a displaced extent of the batch's own object changes
nothing. -/
theorem worker_live_sectors_accounting_witness :
    liveDec 5 (fun o => if o = 3 then 100 else 7) ⟨0, 8, ⟨3, 40⟩⟩ 3 = 92 ∧
    liveDec 5 (fun o => if o = 3 then 100 else 7) ⟨0, 8, ⟨3, 40⟩⟩ 9 = 7 ∧
    liveDec 5 (fun o => if o = 3 then 100 else 7) ⟨0, 8, ⟨5, 40⟩⟩ =
      (fun o => if o = 3 then 100 else 7) := by
  have h1 := (worker_live_sectors_accounting 5 0 ([], fun _ => 0) (0, 0)
      (fun o => if o = 3 then 100 else 7) ⟨0, 8, ⟨3, 40⟩⟩).2.2
      (by decide) (by norm_num [U32]) (by norm_num)
  have h2 := (worker_live_sectors_accounting 5 0 ([], fun _ => 0) (0, 0)
      (fun o => if o = 3 then 100 else 7) ⟨0, 8, ⟨5, 40⟩⟩).2.1 rfl
  exact ⟨by simpa using h1.1, by simpa using h1.2 9 (by norm_num), h2⟩

/-- With an empty hash map and an empty free list, `read_cache::add` is a
no-op for any arguments: the miss path finds no slot and returns before
touching anything. -/
theorem rcAdd_noop (st : RCState) (oo : ObjOff) (n : Nat)
    (hrm : st.rmap = []) (hfree : st.free_blks = []) : rcAdd st oo n = st := by
  rw [rcAdd]
  split
  · have hfind : rcFind st.rmap ⟨oo.obj, oo.offset / 128⟩ = none := by
      simp [rcFind, hrm]
    have hlast : st.free_blks.getLast? = none := by
      simp [hfree]
    rw [hfind, hlast]
  · rfl

/-- Folding dropped admissions over a starved read cache leaves it
unchanged. -/
theorem rcAdd_foldl_noop (st : RCState) (hrm : st.rmap = [])
    (hfree : st.free_blks = []) (l : List (ObjOff × Nat)) :
    l.foldl (fun s p => rcAdd s p.1 p.2) st = st := by
  induction l with
  | nil => rfl
  | cons p rest ih =>
    simp only [List.foldl_cons, rcAdd_noop st p.1 p.2 hrm hfree, ih]

/-- With an empty hash map, every chunk the intra-extent loop of
`read_cache::read` delivers is fetched from the backend. -/
theorem rcReadInner_backend (st : RCState) (sectors : Nat)
    (hrm : st.rmap = []) :
    ∀ fuel base limit pobj poff,
      ∀ c ∈ (rcReadInner st sectors fuel base limit pobj poff).1,
        ∃ o s k, c = RChunk.fromBackend o s k := by
  intro fuel
  induction fuel with
  | zero => intro base limit pobj poff c hc; simp [rcReadInner] at hc
  | succ fuel ih =>
    intro base limit pobj poff c hc
    rw [rcReadInner] at hc
    by_cases hbl : base < limit
    · rw [if_pos hbl] at hc
      have hfind : rcFind st.rmap ⟨pobj, poff / 128⟩ = none := by
        simp [rcFind, hrm]
      simp only [hfind] at hc
      simp only [List.mem_cons] at hc
      rcases hc with rfl | hc
      · exact ⟨_, _, _, rfl⟩
      · exact ih _ _ _ _ c hc
    · rw [if_neg hbl] at hc
      simp at hc

/-- With an empty hash map, every chunk `read_cache::read` delivers is a
zero fill or a backend fetch. -/
theorem rcReadExts_sources (st : RCState) (sectors : Nat)
    (hrm : st.rmap = []) :
    ∀ exts lba rem,
      ∀ c ∈ (rcReadExts st sectors exts lba rem).1,
        (∃ k, c = RChunk.zfill k) ∨ ∃ o s k, c = RChunk.fromBackend o s k := by
  intro exts
  induction exts with
  | nil =>
    intro lba rem c hc
    simp only [rcReadExts] at hc
    split at hc
    · simp only [List.mem_singleton] at hc
      exact Or.inl ⟨_, hc⟩
    · simp at hc
  | cons e rest ih =>
    intro lba rem c hc
    simp only [rcReadExts, List.mem_append, List.mem_cons] at hc
    rcases hc with (hg | hi) | hr
    · split at hg
      · simp only [List.mem_singleton] at hg
        exact Or.inl ⟨_, hg⟩
      · simp at hg
    · exact Or.inr (rcReadInner_backend st sectors hrm _ _ _ _ _ c hi)
    · exact ih _ _ c hr

/-- C7: `read_cache::add(oo, sectors, buf)` admits data only when the
chunk key `(obj, offset/128)` is already mapped to a slot or the free list
is non-empty; when the free list is empty and the mapping is absent, `add`
returns without modifying the slot table, bitmap, hash map, free list or
device (the whole state is unchanged); and on a starved cache the
enclosing `read_cache::read` still delivers every chunk as a zero fill or
a backend fetch, its admission list leaving the state untouched. -/
theorem rcache_add_drop_when_full (st : RCState) (oo : ObjOff) (n : Nat)
    (m : List (Extent ObjOff)) (offset len : Nat) :
    (0 < n → rcFind st.rmap ⟨oo.obj, oo.offset / 128⟩ = none →
      st.free_blks = [] → rcAdd st oo n = st) ∧
    (st.rmap = [] → st.free_blks = [] →
      (rcReadFull st m offset len).2 = st ∧
      ∀ c ∈ (rcReadFull st m offset len).1.1,
        (∃ k, c = RChunk.zfill k) ∨ ∃ o s k, c = RChunk.fromBackend o s k) := by
  constructor
  · intro hn hfind hfree
    rw [rcAdd, dif_pos hn, hfind]
    rw [show st.free_blks.getLast? = none by simp [hfree]]
  · intro hrm hfree
    refine ⟨rcAdd_foldl_noop st hrm hfree _, ?_⟩
    intro c hc
    exact rcReadExts_sources st (len / 512) hrm _ _ _ c hc

/-- Witness for C7: on a cache with empty hash and empty free list, an
admission of 128 sectors at `(obj 7, offset 0)` is dropped wholesale, and
a read over a mapped extent leaves the state unchanged. -/
theorem rcache_add_drop_when_full_witness :
    rcAdd ⟨4, [], [], [5], [⟨9, 9⟩], [(3, 4)]⟩ ⟨7, 0⟩ 128 =
      ⟨4, [], [], [5], [⟨9, 9⟩], [(3, 4)]⟩ ∧
    (rcReadFull ⟨4, [], [], [5], [⟨9, 9⟩], [(3, 4)]⟩
        [⟨0, 8, ⟨2, 0⟩⟩] 0 8192).2 = ⟨4, [], [], [5], [⟨9, 9⟩], [(3, 4)]⟩ := by
  have h := rcache_add_drop_when_full ⟨4, [], [], [5], [⟨9, 9⟩], [(3, 4)]⟩
    ⟨7, 0⟩ 128 [⟨0, 8, ⟨2, 0⟩⟩] 0 8192
  exact ⟨h.1 (by norm_num) (by decide) rfl, (h.2 rfl rfl).1⟩

/-- Clipped-cover test: the piece of `e` clipped to `[base, limit)`
contains sector `s`. -/
def pcov (base limit s : Nat) (e : Extent ObjOff) : Bool :=
  decide (max e.base base ≤ s) && decide (s < min e.limit limit)

/-- Unclipped cover test, the predicate of `Extmap.valAt`. -/
def coverP (s : Nat) (e : Extent ObjOff) : Bool :=
  decide (e.base ≤ s) && decide (s < e.limit)

/-- The source `translate::read` delivers for sector `s` of a clipped hit
`e`: the hit's object at the clip-shifted offset, from the in-memory batch
buffer when the object is still in `in_mem_objects`. -/
def pieceSrc (inmem : List Nat) (base : Nat) (e : Extent ObjOff) (s : Nat) : TSrc :=
  if inmem.contains e.val.obj then
    TSrc.inmem e.val.obj
      (e.val.offset + (max e.base base - e.base) + (s - max e.base base))
  else
    TSrc.obj e.val.obj
      (e.val.offset + (max e.base base - e.base) + (s - max e.base base))

/-- `getLast?` returns a member of the list. -/
theorem lastMem {α : Type} : ∀ (l : List α) (a : α), l.getLast? = some a → a ∈ l
  | [], a, h => by simp at h
  | [x], a, h => by
    simp only [List.getLast?_singleton, Option.some.injEq] at h
    simp [h]
  | x :: y :: t, a, h => by
    rw [List.getLast?_cons_cons] at h
    exact List.mem_cons_of_mem x (lastMem (y :: t) a h)

/-- Unfolding equation of `sectorAt` on a cons cell. -/
theorem sectorAt_cons (r : TRegion) (rs : List TRegion) (pos s : Nat) :
    sectorAt (r :: rs) pos s =
      if s < pos + regionLen r then
        (if pos ≤ s then some (regionSrcAt r (s - pos)) else none)
      else sectorAt rs (pos + regionLen r) s := rfl

/-- Regions laid out from `pos` never cover a sector below `pos`. -/
theorem sectorAt_lt : ∀ (rs : List TRegion) (pos s : Nat), s < pos →
    sectorAt rs pos s = none
  | [], _, _, _ => rfl
  | r :: rs, pos, s, h => by
    unfold sectorAt
    rw [if_pos (by omega), if_neg (by omega)]

/-- `totalLen` distributes over append. -/
theorem totalLen_append (xs ys : List TRegion) :
    totalLen (xs ++ ys) = totalLen xs + totalLen ys := by
  simp [totalLen]

/-- Looking a sector up in concatenated region lists. -/
theorem sectorAt_append : ∀ (xs ys : List TRegion) (pos s : Nat),
    sectorAt (xs ++ ys) pos s =
      if s < pos + totalLen xs then sectorAt xs pos s
      else sectorAt ys (pos + totalLen xs) s
  | [], ys, pos, s => by
    have h0 : totalLen ([] : List TRegion) = 0 := rfl
    simp only [List.nil_append, h0, Nat.add_zero]
    split
    · rename_i h
      rw [sectorAt_lt ys pos s h]
      rfl
    · rfl
  | r :: xs, ys, pos, s => by
    have hT : totalLen (r :: xs) = regionLen r + totalLen xs := by simp [totalLen]
    simp only [List.cons_append, sectorAt, List.append_eq]
    rw [sectorAt_append xs ys (pos + regionLen r) s, hT, ← Nat.add_assoc]
    split_ifs <;> first | rfl | omega

/-- The regions `trWalk` emits cover exactly `[prev, lastLimit)`:
their total length is `lastLimit - prev`. -/
theorem trWalk_total (inmem : List Nat) (base limit : Nat) :
    ∀ (hits : List (Extent ObjOff)) (prev : Nat),
      hits.Pairwise (fun a b => a.limit ≤ b.base) →
      (∀ e ∈ hits, e.base < e.limit ∧ base < e.limit ∧ e.base < limit) →
      (∀ e ∈ hits, prev ≤ max e.base base) →
      base ≤ prev → base ≤ limit →
      prev ≤ lastLimit hits prev limit ∧
      totalLen (trWalk inmem base limit hits prev) =
        lastLimit hits prev limit - prev
  | [], prev, _, _, _, _, _ => by simp [trWalk, totalLen, lastLimit]
  | e :: rest, prev, hp, hb, hprev, hbase, hbl => by
    obtain ⟨hp1, hp2⟩ := List.pairwise_cons.mp hp
    obtain ⟨he1, he2, he3⟩ := hb e (List.mem_cons_self e rest)
    have hble : max e.base base ≤ min e.limit limit := by omega
    have hpb : prev ≤ max e.base base := hprev e (List.mem_cons_self e rest)
    have hrec := trWalk_total inmem base limit rest (min e.limit limit)
      hp2 (fun f hf => hb f (List.mem_cons_of_mem e hf))
      (fun f hf => by have := hp1 f hf; omega)
      (by omega) hbl
    have hgap : totalLen (if prev < max e.base base then
        [TRegion.zfill (max e.base base - prev)] else []) =
        max e.base base - prev := by
      split <;> simp [totalLen, regionLen] <;> omega
    have hlast : lastLimit (e :: rest) prev limit =
        lastLimit rest (min e.limit limit) limit := by
      cases rest with
      | nil => simp [lastLimit]
      | cons f t =>
        cases hg : (f :: t).getLast? with
        | none =>
          rw [List.getLast?_eq_none] at hg
          exact absurd hg (by simp)
        | some a =>
          unfold lastLimit
          rw [List.getLast?_cons_cons, hg]
    constructor
    · rw [hlast]
      have := hrec.1
      omega
    · show totalLen ((if prev < max e.base base then
        [TRegion.zfill (max e.base base - prev)] else []) ++
        (hitRegion inmem (extShiftOO e.val (max e.base base - e.base)).obj
          (extShiftOO e.val (max e.base base - e.base)).offset
          (min e.limit limit - max e.base base) ::
          trWalk inmem base limit rest (min e.limit limit))) = _
      rw [totalLen_append]
      have hhit : ∀ o soff n, totalLen (hitRegion inmem o soff n ::
          trWalk inmem base limit rest (min e.limit limit)) =
          n + totalLen (trWalk inmem base limit rest (min e.limit limit)) := by
        intro o soff n
        unfold hitRegion
        split <;> simp [totalLen, regionLen]
      rw [hhit, hgap, hrec.2, hlast]
      have := hrec.1
      omega

/-- `lastLimit` of a two-or-more element list ignores its first element
and the fallback cursor. -/
theorem lastLimit_cons_cons (e f : Extent ObjOff) (t : List (Extent ObjOff))
    (prev prev' limit : Nat) :
    lastLimit (e :: f :: t) prev limit = lastLimit (f :: t) prev' limit := by
  cases hg : (f :: t).getLast? with
  | none =>
    rw [List.getLast?_eq_none_iff] at hg
    exact absurd hg (by simp)
  | some a =>
    unfold lastLimit
    rw [List.getLast?_cons_cons, hg]

/-- Per-sector characterization of the regions `translate::read` builds:
inside the covered prefix, a sector inside a clipped hit is delivered from
that hit and a sector in a gap is zero-filled; past `lastLimit` nothing is
delivered. -/
theorem trWalk_char (inmem : List Nat) (base limit : Nat) :
    ∀ (hits : List (Extent ObjOff)) (prev s : Nat),
      hits.Pairwise (fun a b => a.limit ≤ b.base) →
      (∀ e ∈ hits, e.base < e.limit ∧ base < e.limit ∧ e.base < limit) →
      (∀ e ∈ hits, prev ≤ max e.base base) →
      base ≤ prev → prev ≤ s → s < limit →
      sectorAt (trWalk inmem base limit hits prev) prev s =
        (match hits.find? (pcov base limit s) with
         | some e => some (pieceSrc inmem base e s)
         | none => if s < lastLimit hits prev limit then some TSrc.zero else none)
  | [], prev, s, _, _, _, _, hps, _ => by
    simp only [trWalk, List.find?_nil, lastLimit, List.getLast?_nil]
    rw [if_neg (by omega)]
    rfl
  | e :: rest, prev, s, hp, hb, hprev, hbase, hps, hsl => by
    obtain ⟨hp1, hp2⟩ := List.pairwise_cons.mp hp
    obtain ⟨he1, he2, he3⟩ := hb e (List.mem_cons_self e rest)
    have hbl : base < limit := by omega
    have hble : max e.base base < min e.limit limit := by omega
    have hpb : prev ≤ max e.base base := hprev e (List.mem_cons_self e rest)
    have hrestb : ∀ f ∈ rest, min e.limit limit ≤ max f.base base := by
      intro f hf
      have := hp1 f hf
      omega
    have htot := trWalk_total inmem base limit rest (min e.limit limit)
      hp2 (fun f hf => hb f (List.mem_cons_of_mem e hf)) hrestb
      (by omega) (by omega)
    have hshape : trWalk inmem base limit (e :: rest) prev =
        (if prev < max e.base base then
          [TRegion.zfill (max e.base base - prev)] else []) ++
        (hitRegion inmem (extShiftOO e.val (max e.base base - e.base)).obj
          (extShiftOO e.val (max e.base base - e.base)).offset
          (min e.limit limit - max e.base base) ::
          trWalk inmem base limit rest (min e.limit limit)) := rfl
    have hgap : totalLen (if prev < max e.base base then
        [TRegion.zfill (max e.base base - prev)] else []) =
        max e.base base - prev := by
      split <;> simp [totalLen, regionLen] <;> omega
    have hlastge : min e.limit limit ≤ lastLimit (e :: rest) prev limit := by
      cases rest with
      | nil => simp [lastLimit]
      | cons f t =>
        rw [lastLimit_cons_cons e f t prev (min e.limit limit) limit]
        exact htot.1
    rw [hshape, sectorAt_append, hgap]
    by_cases h1 : s < max e.base base
    · have hgne : prev < max e.base base := by omega
      rw [if_pos (by omega : s < prev + (max e.base base - prev))]
      rw [if_pos hgne]
      have hL : sectorAt [TRegion.zfill (max e.base base - prev)] prev s =
          some TSrc.zero := by
        unfold sectorAt
        rw [if_pos (by simp [regionLen]; omega), if_pos hps]
        rfl
      rw [hL]
      have hpe : pcov base limit s e = false := by
        simp only [pcov, Bool.and_eq_false_iff, decide_eq_false_iff_not]
        omega
      have hprest : rest.find? (pcov base limit s) = none := by
        apply List.find?_eq_none.mpr
        intro f hf
        have := hrestb f hf
        simp only [pcov, Bool.and_eq_true, decide_eq_true_eq, not_and]
        omega
      rw [List.find?_cons_of_neg _ (by simp [hpe]), hprest]
      rw [if_pos (by omega)]
    · by_cases h2 : s < min e.limit limit
      · rw [if_neg (by omega : ¬ s < prev + (max e.base base - prev))]
        have hpos : prev + (max e.base base - prev) = max e.base base := by omega
        rw [hpos]
        have hlen : regionLen (hitRegion inmem
            (extShiftOO e.val (max e.base base - e.base)).obj
            (extShiftOO e.val (max e.base base - e.base)).offset
            (min e.limit limit - max e.base base)) =
            min e.limit limit - max e.base base := by
          unfold hitRegion
          split <;> rfl
        have hpe : pcov base limit s e = true := by
          simp only [pcov, Bool.and_eq_true, decide_eq_true_eq]
          omega
        rw [List.find?_cons_of_pos _ hpe]
        unfold sectorAt
        rw [hlen]
        rw [if_pos (by omega), if_pos (by omega)]
        unfold hitRegion pieceSrc
        by_cases hc : inmem.contains e.val.obj
        · rw [if_pos (show inmem.contains
              (extShiftOO e.val (max e.base base - e.base)).obj = true by
                simpa [extShiftOO] using hc)]
          have hm : e.val.obj ∈ inmem := by simpa using hc
          simp [regionSrcAt, extShiftOO, hm]
        · rw [if_neg (show ¬ inmem.contains
              (extShiftOO e.val (max e.base base - e.base)).obj = true by
                simpa [extShiftOO] using hc)]
          have hm : e.val.obj ∉ inmem := by simpa using hc
          simp [regionSrcAt, extShiftOO, hm]
      · rw [if_neg (by omega : ¬ s < prev + (max e.base base - prev))]
        have hpos : prev + (max e.base base - prev) = max e.base base := by omega
        rw [hpos]
        have hlen : regionLen (hitRegion inmem
            (extShiftOO e.val (max e.base base - e.base)).obj
            (extShiftOO e.val (max e.base base - e.base)).offset
            (min e.limit limit - max e.base base)) =
            min e.limit limit - max e.base base := by
          unfold hitRegion
          split <;> rfl
        have hstep : sectorAt (hitRegion inmem
            (extShiftOO e.val (max e.base base - e.base)).obj
            (extShiftOO e.val (max e.base base - e.base)).offset
            (min e.limit limit - max e.base base) ::
            trWalk inmem base limit rest (min e.limit limit))
            (max e.base base) s =
            sectorAt (trWalk inmem base limit rest (min e.limit limit))
              (min e.limit limit) s := by
          rw [sectorAt_cons, hlen, if_neg (by omega),
            show max e.base base + (min e.limit limit - max e.base base) =
              min e.limit limit by omega]
        rw [hstep]
        rw [trWalk_char inmem base limit rest (min e.limit limit) s hp2
          (fun f hf => hb f (List.mem_cons_of_mem e hf)) hrestb
          (by omega) (by omega) hsl]
        have hpe : pcov base limit s e = false := by
          simp only [pcov, Bool.and_eq_false_iff, decide_eq_false_iff_not]
          omega
        rw [List.find?_cons_of_neg _ (by simp [hpe])]
        cases hf : rest.find? (pcov base limit s) with
        | some f => rfl
        | none =>
          cases rest with
          | nil =>
            simp only [lastLimit, List.getLast?_nil, List.getLast?_singleton]
          | cons f t =>
            rw [lastLimit_cons_cons e f t prev (min e.limit limit) limit]

/-- The hits iterated by `translate::read` are sorted and all overlap the
request window. -/
theorem hitsOf_props (base limit : Nat) :
    ∀ (m : List (Extent ObjOff)),
      m.Pairwise (fun a b => a.limit ≤ b.base) →
      (∀ e ∈ m, e.base < e.limit) →
      ((hitsOf m base limit).Pairwise (fun a b => a.limit ≤ b.base) ∧
       ∀ e ∈ hitsOf m base limit,
         e.base < e.limit ∧ base < e.limit ∧ e.base < limit)
  | [], _, _ => by simp [hitsOf]
  | e :: rest, hp, hb => by
    obtain ⟨hp1, hp2⟩ := List.pairwise_cons.mp hp
    by_cases he : e.limit ≤ base
    · have hrw : hitsOf (e :: rest) base limit = hitsOf rest base limit := by
        unfold hitsOf
        rw [List.dropWhile_cons, if_pos (by simpa using he)]
      rw [hrw]
      exact hitsOf_props base limit rest hp2
        (fun f hf => hb f (List.mem_cons_of_mem e hf))
    · by_cases hq : e.base < limit
      · have hrw : hitsOf (e :: rest) base limit =
            e :: rest.takeWhile (fun f => decide (f.base < limit)) := by
          unfold hitsOf
          rw [List.dropWhile_cons, if_neg (by simpa using he),
            List.takeWhile_cons, if_pos (by simpa using hq)]
        rw [hrw]
        constructor
        · rw [List.pairwise_cons]
          exact ⟨fun f hf => hp1 f (((rest.takeWhile_prefix _).sublist).subset hf),
            hp2.sublist (rest.takeWhile_prefix _).sublist⟩
        · intro f hf
          rcases List.mem_cons.mp hf with rfl | hf2
          · exact ⟨hb f (List.mem_cons_self f rest), by omega, hq⟩
          · have hfm : f ∈ rest := ((rest.takeWhile_prefix _).sublist).subset hf2
            have hfb : e.limit ≤ f.base := hp1 f hfm
            have hfl : f.base < f.limit := hb f (List.mem_cons_of_mem e hfm)
            have hfq : f.base < limit := by
              simpa using List.mem_takeWhile_imp hf2
            exact ⟨hfl, by omega, hfq⟩
      · have hrw : hitsOf (e :: rest) base limit = [] := by
          unfold hitsOf
          rw [List.dropWhile_cons, if_neg (by simpa using he),
            List.takeWhile_cons, if_neg (by simpa using hq)]
        rw [hrw]
        simp

/-- Finding the hit covering sector `s` among the clipped hits agrees with
finding it in the whole map. -/
theorem find_cover_hits (base limit s : Nat) (hbs : base ≤ s) (hsl : s < limit) :
    ∀ (m : List (Extent ObjOff)),
      m.Pairwise (fun a b => a.limit ≤ b.base) →
      (∀ e ∈ m, e.base < e.limit) →
      (hitsOf m base limit).find? (pcov base limit s) = m.find? (coverP s)
  | [], _, _ => by simp [hitsOf]
  | e :: rest, hp, hb => by
    obtain ⟨hp1, hp2⟩ := List.pairwise_cons.mp hp
    by_cases he : e.limit ≤ base
    · have hrw : hitsOf (e :: rest) base limit = hitsOf rest base limit := by
        unfold hitsOf
        rw [List.dropWhile_cons, if_pos (by simpa using he)]
      have hcov : coverP s e = false := by
        simp only [coverP, Bool.and_eq_false_iff, decide_eq_false_iff_not]
        omega
      rw [hrw, List.find?_cons_of_neg _ (by simp [hcov])]
      exact find_cover_hits base limit s hbs hsl rest hp2
        (fun f hf => hb f (List.mem_cons_of_mem e hf))
    · by_cases hq : e.base < limit
      · have hrw : hitsOf (e :: rest) base limit =
            e :: rest.takeWhile (fun f => decide (f.base < limit)) := by
          unfold hitsOf
          rw [List.dropWhile_cons, if_neg (by simpa using he),
            List.takeWhile_cons, if_pos (by simpa using hq)]
        have hrest : hitsOf rest base limit =
            rest.takeWhile (fun f => decide (f.base < limit)) := by
          cases rest with
          | nil => rfl
          | cons f t =>
            have hfb : e.limit ≤ f.base := hp1 f (List.mem_cons_self f t)
            have hfl : f.base < f.limit :=
              hb f (List.mem_cons_of_mem e (List.mem_cons_self f t))
            unfold hitsOf
            rw [List.dropWhile_cons, if_neg (by simp; omega)]
        rw [hrw]
        by_cases hcv : coverP s e = true
        · have hpe : pcov base limit s e = true := by
            simp only [coverP, Bool.and_eq_true, decide_eq_true_eq] at hcv
            simp only [pcov, Bool.and_eq_true, decide_eq_true_eq]
            omega
          rw [List.find?_cons_of_pos _ hpe, List.find?_cons_of_pos _ hcv]
        · have hcvf : coverP s e = false := by
            revert hcv
            cases coverP s e <;> simp
          have hpe : pcov base limit s e = false := by
            simp only [coverP, Bool.and_eq_false_iff,
              decide_eq_false_iff_not] at hcvf
            simp only [pcov, Bool.and_eq_false_iff, decide_eq_false_iff_not]
            omega
          rw [List.find?_cons_of_neg _ (by simp [hpe]),
            List.find?_cons_of_neg _ (by simp [hcvf]), ← hrest]
          exact find_cover_hits base limit s hbs hsl rest hp2
            (fun f hf => hb f (List.mem_cons_of_mem e hf))
      · have hrw : hitsOf (e :: rest) base limit = [] := by
          unfold hitsOf
          rw [List.dropWhile_cons, if_neg (by simpa using he),
            List.takeWhile_cons, if_neg (by simpa using hq)]
        have hnone : (e :: rest).find? (coverP s) = none := by
          apply List.find?_eq_none.mpr
          intro f hf
          rcases List.mem_cons.mp hf with rfl | hf2
          · simp only [coverP, Bool.and_eq_true, decide_eq_true_eq, not_and]
            omega
          · have hfb : e.limit ≤ f.base := hp1 f hf2
            have hel : e.base < e.limit := hb e (List.mem_cons_self e rest)
            simp only [coverP, Bool.and_eq_true, decide_eq_true_eq, not_and]
            omega
        rw [hrw, hnone]
        rfl

/-- C3 (amended): for `translate::read` over `[base, limit)`, a gap that
precedes the first mapped extent or lies between two mapped extents is
zero-filled, and mapped sub-ranges are fetched from their clip-shifted
`(object, offset)` locations (from the in-memory batch buffer when the
object is still in memory); but a gap that follows the last mapped extent
is not written at all — the return value counts only the bytes through the
end of the last overlapping extent (a short read).  When the object map is
wholly empty the entire request is zero-filled and `len` returned. -/
theorem translate_read_zero_fill_semantics (m : List (Extent ObjOff))
    (inmem : List Nat) (offset len s : Nat) (hwf : Extmap.WF m)
    (hbs : offset / 512 ≤ s) (hsl : s < offset / 512 + len / 512) :
    (m = [] →
      sectorAt (translateRead m inmem offset len).1 (offset / 512) s =
        some TSrc.zero ∧
      (translateRead m inmem offset len).2 = len) ∧
    (m ≠ [] →
      (∀ v, Extmap.valAt extShiftOO m s = some v →
        sectorAt (translateRead m inmem offset len).1 (offset / 512) s =
          some (if inmem.contains v.obj then TSrc.inmem v.obj v.offset
                else TSrc.obj v.obj v.offset)) ∧
      (Extmap.valAt extShiftOO m s = none →
        sectorAt (translateRead m inmem offset len).1 (offset / 512) s =
          (if s < lastLimit (hitsOf m (offset / 512) (offset / 512 + len / 512))
              (offset / 512) (offset / 512 + len / 512)
           then some TSrc.zero else none)) ∧
      (translateRead m inmem offset len).2 =
        512 * (lastLimit (hitsOf m (offset / 512) (offset / 512 + len / 512))
          (offset / 512) (offset / 512 + len / 512) - offset / 512)) := by
  constructor
  · rintro rfl
    have hrw : translateRead [] inmem offset len =
        ([TRegion.zfill (len / 512)], len) := by
      simp [translateRead]
    rw [hrw]
    constructor
    · rw [show ([TRegion.zfill (len / 512)], len).1 =
        [TRegion.zfill (len / 512)] from rfl]
      rw [sectorAt_cons]
      rw [if_pos (by simp only [regionLen]; omega), if_pos hbs]
      rfl
    · rfl
  · intro hne
    have hie : m.isEmpty = false := by
      simpa [List.isEmpty_iff] using hne
    have hwalkexp : translateRead m inmem offset len =
        (trWalk inmem (offset / 512) (offset / 512 + len / 512)
          (hitsOf m (offset / 512) (offset / 512 + len / 512)) (offset / 512),
         512 * totalLen (trWalk inmem (offset / 512) (offset / 512 + len / 512)
          (hitsOf m (offset / 512) (offset / 512 + len / 512))
          (offset / 512))) := by
      simp [translateRead, hie]
    have hprops := hitsOf_props (offset / 512) (offset / 512 + len / 512) m
      hwf.1 hwf.2
    have hchar := trWalk_char inmem (offset / 512) (offset / 512 + len / 512)
      (hitsOf m (offset / 512) (offset / 512 + len / 512)) (offset / 512) s
      hprops.1 hprops.2 (fun e _ => le_max_right _ _) (le_refl _) hbs hsl
    have hfind := find_cover_hits (offset / 512) (offset / 512 + len / 512) s
      hbs hsl m hwf.1 hwf.2
    have htot := trWalk_total inmem (offset / 512) (offset / 512 + len / 512)
      (hitsOf m (offset / 512) (offset / 512 + len / 512)) (offset / 512)
      hprops.1 hprops.2 (fun e _ => le_max_right _ _) (le_refl _) (by omega)
    refine ⟨?_, ?_, ?_⟩
    · intro v hv
      have hv' : (m.find? (coverP s)).map
          (fun e => extShiftOO e.val (s - e.base)) = some v := hv
      obtain ⟨e, hfe, hev⟩ := Option.map_eq_some'.mp hv'
      rw [hwalkexp]
      rw [show (Prod.mk (trWalk inmem (offset / 512) (offset / 512 + len / 512)
          (hitsOf m (offset / 512) (offset / 512 + len / 512)) (offset / 512))
          (512 * totalLen (trWalk inmem (offset / 512)
            (offset / 512 + len / 512)
            (hitsOf m (offset / 512) (offset / 512 + len / 512))
            (offset / 512)))).1 =
          trWalk inmem (offset / 512) (offset / 512 + len / 512)
            (hitsOf m (offset / 512) (offset / 512 + len / 512))
            (offset / 512) from rfl]
      rw [hchar, hfind, hfe]
      have hcov := List.find?_some hfe
      simp only [coverP, Bool.and_eq_true, decide_eq_true_eq] at hcov
      subst hev
      simp only [pieceSrc, extShiftOO]
      have hb2 : e.base ≤ max e.base (offset / 512) := le_max_left _ _
      have hbs2 : max e.base (offset / 512) ≤ s := by omega
      by_cases hc : inmem.contains e.val.obj
      · rw [if_pos hc, if_pos hc]
        simp only [Option.some.injEq, TSrc.inmem.injEq]
        refine ⟨trivial, ?_⟩
        omega
      · rw [if_neg hc, if_neg hc]
        simp only [Option.some.injEq, TSrc.obj.injEq]
        refine ⟨trivial, ?_⟩
        omega
    · intro hv
      have hnone : m.find? (coverP s) = none := by
        have hv' : (m.find? (coverP s)).map
            (fun e => extShiftOO e.val (s - e.base)) = none := hv
        simpa using hv'
      rw [hwalkexp]
      rw [show (Prod.mk (trWalk inmem (offset / 512) (offset / 512 + len / 512)
          (hitsOf m (offset / 512) (offset / 512 + len / 512)) (offset / 512))
          (512 * totalLen (trWalk inmem (offset / 512)
            (offset / 512 + len / 512)
            (hitsOf m (offset / 512) (offset / 512 + len / 512))
            (offset / 512)))).1 =
          trWalk inmem (offset / 512) (offset / 512 + len / 512)
            (hitsOf m (offset / 512) (offset / 512 + len / 512))
            (offset / 512) from rfl]
      rw [hchar, hfind, hnone]
    · rw [hwalkexp]
      rw [show (Prod.mk (trWalk inmem (offset / 512) (offset / 512 + len / 512)
          (hitsOf m (offset / 512) (offset / 512 + len / 512)) (offset / 512))
          (512 * totalLen (trWalk inmem (offset / 512)
            (offset / 512 + len / 512)
            (hitsOf m (offset / 512) (offset / 512 + len / 512))
            (offset / 512)))).2 =
          512 * totalLen (trWalk inmem (offset / 512)
            (offset / 512 + len / 512)
            (hitsOf m (offset / 512) (offset / 512 + len / 512))
            (offset / 512)) from rfl]
      rw [htot.2]

/-- Witness for C3 (amended claim) on the map `[4,8) → (obj 1, off 16)`,
read `[0,16)`: the gap sector 2 before the extent is zero-filled, mapped
sector 5 comes from object 1 at offset 17, trailing sector 12 is never
written, and the read returns 4096 of the 8192 requested bytes. -/
theorem translate_read_zero_fill_semantics_witness :
    sectorAt (translateRead [⟨4, 8, ⟨1, 16⟩⟩] [] 0 8192).1 0 2 =
      some TSrc.zero ∧
    sectorAt (translateRead [⟨4, 8, ⟨1, 16⟩⟩] [] 0 8192).1 0 5 =
      some (TSrc.obj 1 17) ∧
    sectorAt (translateRead [⟨4, 8, ⟨1, 16⟩⟩] [] 0 8192).1 0 12 = none ∧
    (translateRead [⟨4, 8, ⟨1, 16⟩⟩] [] 0 8192).2 = 4096 := by
  have h2 := (translate_read_zero_fill_semantics [⟨4, 8, ⟨1, 16⟩⟩] [] 0 8192 2
    (by decide) (by decide) (by decide)).2 (by decide)
  have h5 := (translate_read_zero_fill_semantics [⟨4, 8, ⟨1, 16⟩⟩] [] 0 8192 5
    (by decide) (by decide) (by decide)).2 (by decide)
  have h12 := (translate_read_zero_fill_semantics [⟨4, 8, ⟨1, 16⟩⟩] [] 0 8192 12
    (by decide) (by decide) (by decide)).2 (by decide)
  refine ⟨(h2.2.1 (by decide)).trans (by decide),
    (h5.1 ⟨1, 17⟩ (by decide)).trans (by decide),
    (h12.2.1 (by decide)).trans (by decide),
    h2.2.2.trans (by decide)⟩

/-- C3 counterexample: on the map `[0,8) → (obj 1, off 0)` and the
16-sector read `[0,16)`, sector 8 is inside the request and unmapped, yet
`translate::read` neither zero-fills it nor writes it at all — it returns
only 4096 of the 8192 requested bytes — contradicting the claim that every
unmapped sub-range, including one following the last mapped extent, is
returned zero-filled. -/
theorem translate_read_trailing_gap_not_zero_filled :
    Extmap.valAt extShiftOO [⟨0, 8, (⟨1, 0⟩ : ObjOff)⟩] 8 = none ∧
    (8 : Nat) < 16 ∧
    sectorAt (translateRead [⟨0, 8, ⟨1, 0⟩⟩] [] 0 8192).1 0 8 = none ∧
    (translateRead [⟨0, 8, ⟨1, 0⟩⟩] [] 0 8192).2 = 4096 := by
  decide
